import Mathlib

/-!
Verification of the selection algebra of `helix-core/src/selection.rs`.

The Rust source is shallowly embedded: `usize` character offsets become `Nat`,
the `SmallVec<[Range; 1]>` range list becomes `List Range`, and operations that
panic in Rust (`assert!`, out-of-bounds indexing) return `Option` here, with
`none` modelling the panic.  External collaborators (`ChangeSet`, the rope text
source, the regex engine) are modelled from the spec at their interface, as
documented on each definition.
-/

set_option maxHeartbeats 1000000

namespace Helix

/-- The `Assoc` affinity passed to `ChangeSet::map_pos`.
Modelled from the spec: the change representation maps an old character offset
plus a "stick-after-insertion" affinity to a new character offset. -/
inductive Assoc where
  | Before
  | After
  deriving DecidableEq

/-- Modelled from the spec: the change-set collaborator (`ChangeSet` lives
outside `selection.rs`).  The spec specifies it only through an emptiness test
("if the change set represents no edits") and the offset-mapping call
`map_pos(pos, assoc)`; nothing else of its structure is ever inspected. -/
structure ChangeSet where
  is_empty : Bool
  map_pos : Nat → Assoc → Nat

/-- `Range` from `selection.rs`: an anchor/head pair of character offsets plus
the cached horizontal position `horiz: Option<u32>`. -/
structure Range where
  anchor : Nat
  head : Nat
  horiz : Option Nat
  deriving DecidableEq

namespace Range

/-- `Range::new(anchor, head)`: `horiz` starts out as `None`. -/
def new (anchor head : Nat) : Range :=
  { anchor := anchor, head := head, horiz := none }

/-- `Range::point(head)`. -/
def point (head : Nat) : Range :=
  new head head

/-- `Range::from()`: start of the range, `min(anchor, head)`.
(`from` is a Lean keyword, hence the underscore.) -/
def from_ (r : Range) : Nat :=
  min r.anchor r.head

/-- `Range::to()`: end of the range, `max(anchor, head)`.
(named with an underscore to match `from_`.) -/
def to_ (r : Range) : Nat :=
  max r.anchor r.head

/-- `Range::is_empty()`: head and anchor at the same position. -/
def is_empty (r : Range) : Bool :=
  r.anchor == r.head

/-- `Range::overlaps(other)`:
`self.from() == other.from() || (self.to() > other.from() && other.to() > self.from())`. -/
def overlaps (self other : Range) : Bool :=
  self.from_ == other.from_ ||
    (decide (self.to_ > other.from_) && decide (other.to_ > self.from_))

/-- `Range::contains(pos)`: `self.from() <= pos && pos < self.to()`. -/
def contains (r : Range) (pos : Nat) : Bool :=
  decide (r.from_ ≤ pos) && decide (pos < r.to_)

/-- `Range::map(changes)`: remap both endpoints with `Assoc::After` affinity and
always reset `horiz` to `None`. -/
def map (r : Range) (changes : ChangeSet) : Range :=
  { anchor := changes.map_pos r.anchor Assoc.After
    head := changes.map_pos r.head Assoc.After
    horiz := none }

/-- `Range::extend(from, to)`: grow the range to cover at least `[from, to]`,
keeping the anchor/head ordering of the original range; `horiz` is reset.
(The Rust `debug_assert!(from <= to)` is a precondition, carried as a
hypothesis by the theorems about `extend`.) -/
def extend (r : Range) (f t : Nat) : Range :=
  if r.anchor ≤ r.head then
    { anchor := min r.anchor f, head := max r.head t, horiz := none }
  else
    { anchor := max r.anchor t, head := min r.head f, horiz := none }

end Range

/-- Strict separation of two ranges: `a` starts strictly before `b` and its
(exclusive) end does not reach into `b`.  This is the relation that holds
between consecutive ranges of a normalized selection. -/
def Range.sep (a b : Range) : Prop :=
  a.from_ < b.from_ ∧ a.to_ ≤ b.from_

instance : IsTrans Range Range.sep :=
  ⟨by
    intro a b c hab hbc
    unfold Range.sep Range.from_ Range.to_ at *
    omega⟩

instance : DecidableRel Range.sep := by
  unfold Range.sep
  infer_instance

instance : IsTotal Range (fun a b => a.from_ ≤ b.from_) :=
  ⟨fun _ _ => Nat.le_total _ _⟩

instance : IsTrans Range (fun a b => a.from_ ≤ b.from_) :=
  ⟨fun _ _ _ => Nat.le_trans⟩

/-- The text-source collaborator is modelled from the spec as a list of
characters; `Range::fragment(text)` slices it between `from()` and `to()`.
(The Rust rope slice panics when the range exceeds the text; the model
saturates, and every theorem that needs in-bounds ranges carries that bound as
a hypothesis.) -/
def Range.fragment (r : Range) (text : List Char) : List Char :=
  (text.drop r.from_).take (r.to_ - r.from_)

/-- `Selection` from `selection.rs`: the ordered range list and the index of
the primary range. -/
structure Selection where
  ranges : List Range
  primary_index : Nat
  deriving DecidableEq

namespace Selection

/-- The sort on ranges performed by `Selection::normalize`:
`ranges.sort_unstable_by_key(Range::from)`.  Any order-by-`from` permutation is
an admissible result of the unstable sort; the model fixes the stable
insertion sort by the key `from`. -/
def sortByFrom (ranges : List Range) : List Range :=
  List.insertionSort (fun a b => a.from_ ≤ b.from_) ranges

/-- The merge step of the sweep: merge `r` into `prev`, the last range already
placed.  The merged span is `[prev.from(), max(r.to(), prev.to())]`; the
anchor/head ordering is taken from the incoming range `r`; `prev.horiz` is
left untouched (the Rust code mutates only `prev.anchor` and `prev.head`). -/
def mergeRange (r prev : Range) : Range :=
  if r.anchor > r.head then
    { anchor := max r.to_ prev.to_, head := prev.from_, horiz := prev.horiz }
  else
    { anchor := prev.from_, head := max r.to_ prev.to_, horiz := prev.horiz }

/-- The merge sweep of `Selection::normalize`: walk the sorted ranges keeping
an output list (here accumulated in reverse).  A range overlapping the last
output range is merged into it, decrementing the primary index when the sweep
position `i` (the number of ranges pushed so far) is at or before it;
otherwise the range is pushed and `i` is incremented. -/
def mergeLoop : List Range → List Range → Nat → Nat → List Range × Nat
  | [], acc, _, p => (acc.reverse, p)
  | r :: rest, [], i, p => mergeLoop rest [r] (i + 1) p
  | r :: rest, prev :: acc, i, p =>
    if r.overlaps prev then
      mergeLoop rest (mergeRange r prev :: acc) i (if i ≤ p then p - 1 else p)
    else
      mergeLoop rest (r :: prev :: acc) (i + 1) p

/-- `Selection::normalize(ranges, primary_index)`: remember the primary range
by value, sort by `from`, relocate the primary by equality, then run the merge
sweep.  `none` models the panic of `ranges[primary_index]` when the index is
out of bounds (the `position(..).unwrap()` after the sort never fails, since
the sort is a permutation). -/
def normalize (ranges : List Range) (primary_index : Nat) : Option Selection :=
  match ranges.get? primary_index with
  | none => none
  | some primary =>
    let sorted := sortByFrom ranges
    let pIdx := sorted.findIdx (fun r => decide (r = primary))
    let res := mergeLoop sorted [] 0 pIdx
    some { ranges := res.1, primary_index := res.2 }

/-- `Selection::new(ranges, primary_index)`: `none` models the
`assert!(!ranges.is_empty())` panic; a single range short-circuits with
`primary_index` forced to 0; otherwise normalize. -/
def new (ranges : List Range) (primary_index : Nat) : Option Selection :=
  if ranges.isEmpty then none
  else if ranges.length = 1 then some { ranges := ranges, primary_index := 0 }
  else normalize ranges primary_index

/-- `Selection::single(anchor, head)`. -/
def single (anchor head : Nat) : Selection :=
  { ranges := [{ anchor := anchor, head := head, horiz := none }], primary_index := 0 }

/-- `Selection::point(pos)`. -/
def point (pos : Nat) : Selection :=
  single pos pos

/-- `Selection::push(range)`: append the range, with the new range's index as
the primary, and renormalize. -/
def push (s : Selection) (range : Range) : Option Selection :=
  normalize (s.ranges ++ [range]) s.ranges.length

/-- `Selection::into_single()`: keep only the primary range.  `none` models the
panic of `self.ranges[self.primary_index]` on an out-of-bounds primary. -/
def into_single (s : Selection) : Option Selection :=
  if s.ranges.length = 1 then some s
  else (s.ranges.get? s.primary_index).map
    (fun r => { ranges := [r], primary_index := 0 })

/-- `Selection::map(changes)`: identity when the change set is empty, otherwise
map every range and rebuild through `Selection::new`. -/
def map (s : Selection) (changes : ChangeSet) : Option Selection :=
  if changes.is_empty then some s
  else new (s.ranges.map (Range.map · changes)) s.primary_index

/-- `Selection::transform(f)`: map `f` over the ranges and rebuild through
`Selection::new`. -/
def transform (s : Selection) (f : Range → Range) : Option Selection :=
  new (s.ranges.map f) s.primary_index

/-- The structural invariant of `Selection` (spec §3): non-empty, sorted by
start, pairwise non-overlapping ranges and an in-bounds primary index. -/
def valid (s : Selection) : Prop :=
  s.ranges ≠ [] ∧
    s.ranges.Pairwise (fun a b => a.from_ ≤ b.from_) ∧
    s.ranges.Pairwise (fun a b => a.overlaps b = false) ∧
    s.primary_index < s.ranges.length

instance (s : Selection) : Decidable s.valid := by
  unfold valid; infer_instance

end Selection

/-! ### The byte/character offset spaces of the text source

Modelled from the spec: the text source offers character-offset slicing and
`O(log n)` bidirectional conversion between character offsets and byte offsets
of the UTF-8 encoding.  Over a `List Char` text these are prefix sums of
`Char.utf8Size`. -/

/-- `Rope::char_to_byte`: the byte offset of the `n`-th character, i.e. the
UTF-8 length of the first `n` characters. -/
def charToByte : List Char → Nat → Nat
  | _, 0 => 0
  | [], _ + 1 => 0
  | c :: cs, k + 1 => c.utf8Size + charToByte cs k

/-- The UTF-8 byte length of a string given as a character list. -/
def utf8Len (s : List Char) : Nat :=
  charToByte s s.length

/-- `Rope::byte_to_char`: the character offset of a byte offset (exact on
encoded-character boundaries, which is the only place the source uses it). -/
def byteToChar : List Char → Nat → Nat
  | _, 0 => 0
  | [], _ + 1 => 0
  | c :: cs, b + 1 => byteToChar cs (b + 1 - c.utf8Size) + 1

/-- `n` is an encoded-character boundary of `s`: the byte offset of some
character offset. -/
def Boundary (s : List Char) (n : Nat) : Prop :=
  ∃ k, k ≤ s.length ∧ n = charToByte s k

/-- Modelled from the spec: the pattern-engine collaborator provides an
existential match predicate and a forward, non-overlapping match iterator
yielding byte-offset start/end pairs ordered left to right. -/
structure Regex where
  is_match : List Char → Bool
  find_iter : List Char → List (Nat × Nat)

/-- Well-formedness of a pattern engine, from its spec contract: every match
lies inside the fragment with `start ≤ end`, and the iterator is forward and
non-overlapping (consecutive matches have `end₁ ≤ start₂` and, as the engine
always advances, strictly increasing starts). -/
def Regex.wf (rx : Regex) : Prop :=
  ∀ s : List Char,
    (∀ m ∈ rx.find_iter s, m.1 ≤ m.2 ∧ m.2 ≤ utf8Len s) ∧
      List.Chain' (fun m1 m2 : Nat × Nat => m1.2 ≤ m2.1 ∧ m1.1 < m2.1) (rx.find_iter s)

/-- Additional pattern-engine properties used for the exact range-per-match
count: matches are non-empty and their offsets sit on encoded-character
boundaries (spec: "pattern match boundaries are always aligned to
encoded-character boundaries"). -/
def Regex.wfStrong (rx : Regex) : Prop :=
  ∀ s : List Char, ∀ m ∈ rx.find_iter s,
    m.1 < m.2 ∧ Boundary s m.1 ∧ Boundary s m.2

/-- `keep_matches(text, selection, regex)`: keep the ranges whose fragment has
a match; `None` when none is left, else `Selection::new(result, 0)`. -/
def keep_matches (text : List Char) (selection : Selection) (regex : Regex) :
    Option Selection :=
  let result := selection.ranges.filter (fun range => regex.is_match (range.fragment text))
  if result.isEmpty then none else Selection.new result 0

/-- The per-range body of `select_on_matches`: one `Range::new` per match in
the fragment, at the match's byte span translated back to character offsets. -/
def selectRange (text : List Char) (sel : Range) (regex : Regex) : List Range :=
  let fragment := sel.fragment text
  let start_byte := charToByte text sel.from_
  (regex.find_iter fragment).map
    (fun mat => Range.new (byteToChar text (start_byte + mat.1))
      (byteToChar text (start_byte + mat.2)))

/-- `select_on_matches(text, selection, regex)`: replace every range by its
per-match ranges; `None` when no range produced any match, else
`Selection::new(result, 0)`. -/
def select_on_matches (text : List Char) (selection : Selection) (regex : Regex) :
    Option Selection :=
  let result := selection.ranges.flatMap (fun sel => selectRange text sel regex)
  if result.isEmpty then none else Selection.new result 0

/-- The match loop of `split_on_matches` for one non-zero-width range: each
match closes the sub-range that started at `start` at the match's start, and
opens the next sub-range at the match's end; after the last match a final
sub-range is pushed only if `start < sel_end`. -/
def splitGo (text : List Char) (start_byte sel_end : Nat) :
    List (Nat × Nat) → Nat → List Range
  | [], start => if start < sel_end then [Range.new start sel_end] else []
  | (ms, me) :: rest, start =>
    Range.new start (byteToChar text (start_byte + ms)) ::
      splitGo text start_byte sel_end rest (byteToChar text (start_byte + me))

/-- The per-range body of `split_on_matches`: a zero-width range passes through
unchanged, otherwise split the fragment on the matches. -/
def splitRange (text : List Char) (sel : Range) (regex : Regex) : List Range :=
  if sel.from_ = sel.to_ then [sel]
  else
    let fragment := sel.fragment text
    let start_byte := charToByte text sel.from_
    splitGo text start_byte sel.to_ (regex.find_iter fragment) sel.from_

/-- `split_on_matches(text, selection, regex)`: split every range on the
matches inside its fragment and rebuild with `Selection::new(result, 0)`
(`none` only models the panic of `Selection::new` on an empty result, which
cannot happen for a valid input selection). -/
def split_on_matches (text : List Char) (selection : Selection) (regex : Regex) :
    Option Selection :=
  Selection.new (selection.ranges.flatMap (fun sel => splitRange text sel regex)) 0

/-- A concrete whitespace-run matcher (the `\s+` pattern of the source's
`test_split_on_matches`): maximal runs of whitespace characters, reported as
byte-offset pairs.  `wsRunsAux s i st` scans `s` at byte position `i` with
`st` holding the start of the run currently open. -/
def wsRunsAux : List Char → Nat → Option Nat → List (Nat × Nat)
  | [], _, none => []
  | [], i, some s => [(s, i)]
  | c :: cs, i, none =>
    if c.isWhitespace then wsRunsAux cs (i + c.utf8Size) (some i)
    else wsRunsAux cs (i + c.utf8Size) none
  | c :: cs, i, some s =>
    if c.isWhitespace then wsRunsAux cs (i + c.utf8Size) (some s)
    else (s, i) :: wsRunsAux cs (i + c.utf8Size) none

/-- The `\s+` pattern as a `Regex` value. -/
def wsRegex : Regex :=
  { is_match := fun s => s.any Char.isWhitespace
    find_iter := fun s => wsRunsAux s 0 none }

/-! ### Concrete inputs used by the example claims and witnesses -/

/-- The text of the source's `test_split_on_matches`. -/
def exText : List Char := " abcd efg wrs   xyz 123 456".toList

/-- The selection of the source's `test_split_on_matches`:
`Selection::new(smallvec![Range::new(0, 9), Range::new(11, 20)], 0)`. -/
def exSel : Selection :=
  { ranges := [Range.new 0 9, Range.new 11 20], primary_index := 0 }

def c6Text : List Char := ['a', 'b']

def c6Sel : Selection :=
  { ranges := [Range.new 0 1, Range.new 1 2], primary_index := 0 }

/-- A matcher whose existential predicate looks for the letter `b`. -/
def c6Rx : Regex :=
  { is_match := fun frag => frag.any (fun c => c == 'b'), find_iter := fun _ => [] }

def c7Text : List Char := ['a', 'b', 'c', 'd']

def c7Sel : Selection :=
  { ranges := [Range.new 0 2, Range.new 3 4], primary_index := 0 }

/-- A matcher behaving like the regex `.`, restricted to one match: it matches
the first character of any non-empty fragment. -/
def c7Rx : Regex :=
  { is_match := fun frag => !frag.isEmpty
    find_iter := fun frag =>
      match frag with
      | [] => []
      | c :: _ => [(0, c.utf8Size)] }

/-- A matcher behaving like the regex `x*` over text that contains no `x`: an
empty match at every encoded-character boundary of the fragment, forward and
non-overlapping (see `c7CexRx_wf`). -/
def c7CexRx : Regex :=
  { is_match := fun _ => true
    find_iter := fun s =>
      (List.range (s.length + 1)).map (fun k => (charToByte s k, charToByte s k)) }

def c7CexText : List Char := ['a', 'b']

/-- Two touching (edge-sharing, non-overlapping) ranges — a valid selection. -/
def c7CexSel : Selection :=
  { ranges := [Range.new 0 1, Range.new 1 2], primary_index := 0 }

/-! ### Basic facts about `Range` -/

namespace Range

theorem from_le_to (r : Range) : r.from_ ≤ r.to_ := by
  unfold from_ to_; omega

theorem overlaps_eq_true (a b : Range) :
    a.overlaps b = true ↔ (a.from_ = b.from_ ∨ (b.from_ < a.to_ ∧ a.from_ < b.to_)) := by
  simp [overlaps]

theorem overlaps_comm (a b : Range) : a.overlaps b = b.overlaps a := by
  have hab := overlaps_eq_true a b
  have hba := overlaps_eq_true b a
  cases h1 : a.overlaps b <;> cases h2 : b.overlaps a <;>
    simp only [h1, h2] at hab hba <;> simp_all <;> omega

theorem sep_of_le_of_not_overlaps {a b : Range} (hle : a.from_ ≤ b.from_)
    (h : b.overlaps a = false) : sep a b := by
  rw [← Bool.not_eq_true, overlaps_eq_true] at h
  have h1 := a.from_le_to
  have h2 := b.from_le_to
  unfold sep
  omega

theorem sep.overlaps_eq_false {a b : Range} (h : sep a b) : a.overlaps b = false := by
  rw [← Bool.not_eq_true, overlaps_eq_true]
  unfold sep at h
  omega

theorem sep.overlaps_eq_false' {a b : Range} (h : sep a b) : b.overlaps a = false := by
  rw [← Bool.not_eq_true, overlaps_eq_true]
  unfold sep at h
  omega

end Range

/-! ### Facts about sorting and the merge sweep -/

namespace Selection

theorem sortByFrom_sorted (l : List Range) :
    (sortByFrom l).Pairwise (fun a b => a.from_ ≤ b.from_) :=
  List.sorted_insertionSort _ l

theorem sortByFrom_eq_self {l : List Range}
    (h : l.Pairwise (fun a b => a.from_ ≤ b.from_)) : sortByFrom l = l :=
  List.Sorted.insertionSort_eq h

theorem mem_sortByFrom {l : List Range} {x : Range} : x ∈ sortByFrom l ↔ x ∈ l :=
  List.mem_insertionSort _

theorem mergeRange_from (r prev : Range) : (mergeRange r prev).from_ = prev.from_ := by
  unfold mergeRange
  split <;> simp only [Range.from_, Range.to_] <;> omega

theorem mergeRange_to (r prev : Range) : (mergeRange r prev).to_ = max r.to_ prev.to_ := by
  unfold mergeRange
  split <;> simp only [Range.from_, Range.to_] <;> omega

theorem sep_congr_from {a b c : Range} (h : Range.sep a b) (hf : c.from_ = b.from_) :
    Range.sep a c := by
  unfold Range.sep at *
  rw [hf]
  exact h

/-- The invariant of the merge sweep: starting from a sorted remaining input
`l`, an accumulator `acc` (the output so far, in reverse) whose ranges are
strictly separated and all start at or before every remaining range, and a
push count `i = acc.length` bounding the primary index by `i + l.length`, the
sweep ends with a strictly separated output and an in-bounds primary index. -/
theorem mergeLoop_spec (l : List Range) :
    ∀ (acc : List Range) (i p : Nat),
      l.Pairwise (fun a b => a.from_ ≤ b.from_) →
      acc.Pairwise (fun a b => Range.sep b a) →
      (∀ a ∈ acc, ∀ x ∈ l, a.from_ ≤ x.from_) →
      i = acc.length →
      p < i + l.length →
      (mergeLoop l acc i p).1.Pairwise Range.sep ∧
        (mergeLoop l acc i p).2 < (mergeLoop l acc i p).1.length := by
  induction l with
  | nil =>
    intro acc i p _ hacc _ hi hp
    rw [mergeLoop]
    refine ⟨List.pairwise_reverse.mpr hacc, ?_⟩
    simp only [List.length_reverse]
    simp only [List.length_nil] at hp
    omega
  | cons r rest ih =>
    intro acc i p hl hacc hb hi hp
    obtain ⟨hr, hrest⟩ := List.pairwise_cons.mp hl
    match acc with
    | [] =>
      rw [mergeLoop]
      refine ih [r] (i + 1) p hrest (by simp) ?_ (by simp at hi ⊢; omega)
        (by simp at hp ⊢; omega)
      intro a ha x hx
      simp only [List.mem_singleton] at ha
      subst ha
      exact hr x hx
    | prev :: acc' =>
      obtain ⟨hprev, hacc'⟩ := List.pairwise_cons.mp hacc
      rw [mergeLoop]
      by_cases hov : r.overlaps prev = true
      · rw [if_pos hov]
        refine ih (mergeRange r prev :: acc') i (if i ≤ p then p - 1 else p) hrest ?_ ?_
          (by simp at hi ⊢; omega) ?_
        · refine List.pairwise_cons.mpr ⟨?_, hacc'⟩
          intro a ha
          exact sep_congr_from (hprev a ha) (mergeRange_from r prev)
        · intro a ha x hx
          rcases List.mem_cons.mp ha with h | h
          · subst h
            rw [mergeRange_from]
            exact hb prev (by simp) x (List.mem_cons_of_mem r hx)
          · exact hb a (List.mem_cons_of_mem prev h) x (List.mem_cons_of_mem r hx)
        · simp only [List.length_cons] at hi hp ⊢
          split <;> omega
      · rw [if_neg hov]
        have hov' : r.overlaps prev = false := by
          revert hov; cases r.overlaps prev <;> simp
        have hsep : Range.sep prev r :=
          Range.sep_of_le_of_not_overlaps (hb prev (by simp) r (by simp)) hov'
        refine ih (r :: prev :: acc') (i + 1) p hrest ?_ ?_
          (by simp at hi ⊢; omega) (by simp at hp ⊢; omega)
        · refine List.pairwise_cons.mpr ⟨?_, hacc⟩
          intro a ha
          rcases List.mem_cons.mp ha with h | h
          · subst h; exact hsep
          · exact IsTrans.trans a prev r (hprev a h) hsep
        · intro a ha x hx
          rcases List.mem_cons.mp ha with h | h
          · subst h
            exact hr x hx
          · exact hb a h x (List.mem_cons_of_mem r hx)

/-- A strictly separated output list is sorted by start and pairwise
non-overlapping. -/
theorem pairwise_sep_valid {l : List Range} (h : l.Pairwise Range.sep) :
    l.Pairwise (fun a b => a.from_ ≤ b.from_) ∧
      l.Pairwise (fun a b => a.overlaps b = false) :=
  ⟨h.imp (fun hs => Nat.le_of_lt hs.1), h.imp (fun hs => hs.overlaps_eq_false)⟩

/-- `Selection::normalize` establishes the structural invariant on any input
whose primary index is in bounds. -/
theorem normalize_valid {rs : List Range} {p : Nat} {s : Selection}
    (h : normalize rs p = some s) : s.valid := by
  unfold normalize at h
  cases hg : rs.get? p with
  | none => rw [hg] at h; exact absurd h (by simp)
  | some primary =>
    rw [hg] at h
    simp only [Option.some.injEq] at h
    have hmem : primary ∈ sortByFrom rs := mem_sortByFrom.mpr (List.get?_mem hg)
    have hidx : (sortByFrom rs).findIdx (fun r => decide (r = primary)) <
        (sortByFrom rs).length :=
      List.findIdx_lt_length_of_exists ⟨primary, hmem, by simp⟩
    have hspec := mergeLoop_spec (sortByFrom rs) [] 0
      ((sortByFrom rs).findIdx (fun r => decide (r = primary)))
      (sortByFrom_sorted rs) (by simp) (by simp) (by simp) (by simpa using hidx)
    obtain ⟨hsep, hlt⟩ := hspec
    obtain ⟨hle, hno⟩ := pairwise_sep_valid hsep
    subst h
    exact ⟨List.ne_nil_of_length_pos (Nat.lt_of_le_of_lt (Nat.zero_le _) hlt), hle, hno, hlt⟩

/-- `Selection::new` establishes the structural invariant whenever it returns. -/
theorem new_valid {rs : List Range} {p : Nat} {s : Selection}
    (h : new rs p = some s) : s.valid := by
  unfold new at h
  split at h
  · exact absurd h (by simp)
  · split at h
    · simp only [Option.some.injEq] at h
      subst h
      rename_i hne hlen
      obtain ⟨a, ha⟩ := List.length_eq_one.mp hlen
      subst ha
      exact ⟨by simp, by simp, by simp, by simp⟩
    · exact normalize_valid h

/-- On an input whose consecutive ranges do not overlap, the merge sweep never
merges: it appends the input to the output and leaves the primary index
untouched. -/
theorem mergeLoop_id (l : List Range) :
    ∀ (acc : List Range) (i p : Nat),
      l.Chain' (fun a b => b.overlaps a = false) →
      (∀ prev ∈ acc.head?, ∀ r ∈ l.head?, r.overlaps prev = false) →
      mergeLoop l acc i p = (acc.reverse ++ l, p) := by
  induction l with
  | nil =>
    intro acc i p _ _
    rw [mergeLoop]
    simp
  | cons r rest ih =>
    intro acc i p hch hhd
    obtain ⟨hr, hrest⟩ := List.chain'_cons'.mp hch
    match acc with
    | [] =>
      rw [mergeLoop, ih [r] (i + 1) p hrest ?_]
      · simp
      · intro prev hprev x hx
        simp only [List.head?_cons, Option.mem_def, Option.some.injEq] at hprev
        subst hprev
        exact hr x hx
    | prev :: acc' =>
      have hov : r.overlaps prev = false := hhd prev (by simp) r (by simp)
      rw [mergeLoop, if_neg (by simp [hov]), ih (r :: prev :: acc') (i + 1) p hrest ?_]
      · simp
      · intro q hq x hx
        simp only [List.head?_cons, Option.mem_def, Option.some.injEq] at hq
        subst hq
        exact hr x hx

/-- `Selection::new` on a non-empty, already sorted and non-overlapping list:
normalization is the identity and the primary index 0 stays 0. -/
theorem new_of_sorted {l : List Range} (hne : l ≠ [])
    (hle : l.Pairwise (fun a b => a.from_ ≤ b.from_))
    (hno : l.Pairwise (fun a b => a.overlaps b = false)) :
    new l 0 = some { ranges := l, primary_index := 0 } := by
  match l with
  | [] => exact absurd rfl hne
  | f :: l' =>
    unfold new
    rw [if_neg (by simp)]
    by_cases hlen : (f :: l').length = 1
    · rw [if_pos hlen]
    · rw [if_neg hlen]
      unfold normalize
      simp only [List.get?_cons_zero]
      rw [sortByFrom_eq_self hle]
      rw [show (f :: l').findIdx (fun r => decide (r = f)) = 0 from by
        simp [List.findIdx_cons]]
      rw [mergeLoop_id _ _ _ _ ?_ (by simp)]
      · simp
      · exact (hno.imp (fun h => by rw [Range.overlaps_comm]; exact h)).chain'

theorem single_valid (anchor head : Nat) : (single anchor head).valid := by
  simp [single, valid]

theorem point_valid (pos : Nat) : (point pos).valid :=
  single_valid pos pos

theorem push_valid {s : Selection} {r : Range} {s' : Selection}
    (h : s.push r = some s') : s'.valid :=
  normalize_valid h

theorem into_single_valid {s s' : Selection} (hv : s.valid)
    (h : s.into_single = some s') : s'.valid := by
  unfold into_single at h
  split at h
  · simp only [Option.some.injEq] at h
    subst h
    exact hv
  · cases hg : s.ranges.get? s.primary_index with
    | none => rw [hg] at h; exact absurd h (by simp)
    | some r =>
      rw [hg] at h
      simp only [Option.map_some', Option.some.injEq] at h
      subst h
      exact ⟨by simp, by simp, by simp, by simp⟩

theorem map_valid {s : Selection} {cs : ChangeSet} {s' : Selection} (hv : s.valid)
    (h : s.map cs = some s') : s'.valid := by
  unfold map at h
  split at h
  · simp only [Option.some.injEq] at h
    subst h
    exact hv
  · exact new_valid h

theorem transform_valid {s : Selection} {f : Range → Range} {s' : Selection}
    (h : s.transform f = some s') : s'.valid :=
  new_valid h

end Selection

theorem keep_matches_valid {t : List Char} {s : Selection} {rx : Regex} {s' : Selection}
    (h : keep_matches t s rx = some s') : s'.valid := by
  simp only [keep_matches] at h
  split at h
  · exact absurd h (by simp)
  · exact Selection.new_valid h

theorem select_on_matches_valid {t : List Char} {s : Selection} {rx : Regex} {s' : Selection}
    (h : select_on_matches t s rx = some s') : s'.valid := by
  simp only [select_on_matches] at h
  split at h
  · exact absurd h (by simp)
  · exact Selection.new_valid h

theorem split_on_matches_valid {t : List Char} {s : Selection} {rx : Regex} {s' : Selection}
    (h : split_on_matches t s rx = some s') : s'.valid :=
  Selection.new_valid h

theorem Range.new_from_of_le {a b : Nat} (h : a ≤ b) : (Range.new a b).from_ = a := by
  unfold Range.new Range.from_
  simp only
  omega

theorem Range.new_to_of_le {a b : Nat} (h : a ≤ b) : (Range.new a b).to_ = b := by
  unfold Range.new Range.to_
  simp only
  omega

namespace Selection

theorem normalize_isSome {rs : List Range} {p : Nat} (h : p < rs.length) :
    ∃ s, normalize rs p = some s := by
  unfold normalize
  rw [List.get?_eq_get h]
  exact ⟨_, rfl⟩

theorem new_isSome {l : List Range} (h : l ≠ []) : ∃ s, new l 0 = some s := by
  unfold new
  rw [if_neg (by simpa using h)]
  by_cases hlen : l.length = 1
  · rw [if_pos hlen]
    exact ⟨_, rfl⟩
  · rw [if_neg hlen]
    exact normalize_isSome (List.length_pos.mpr h)

theorem mergeRange_forward {x prev : Range} (hx : x.anchor ≤ x.head) :
    (mergeRange x prev).anchor ≤ (mergeRange x prev).head := by
  unfold mergeRange
  rw [if_neg (by omega)]
  have h1 := prev.from_le_to
  have h2 : prev.to_ ≤ max x.to_ prev.to_ := Nat.le_max_right _ _
  simp only
  omega

theorem mergeLoop_forward (l : List Range) :
    ∀ (acc : List Range) (i p : Nat),
      (∀ r ∈ l, r.anchor ≤ r.head) → (∀ r ∈ acc, r.anchor ≤ r.head) →
      ∀ r ∈ (mergeLoop l acc i p).1, r.anchor ≤ r.head := by
  induction l with
  | nil =>
    intro acc i p _ hacc r hr
    rw [mergeLoop] at hr
    exact hacc r (by simpa using hr)
  | cons x rest ih =>
    intro acc i p hl hacc r hr
    cases acc with
    | nil =>
      rw [mergeLoop] at hr
      refine ih [x] (i + 1) p (fun y hy => hl y (List.mem_cons_of_mem x hy)) ?_ r hr
      intro y hy
      simp only [List.mem_singleton] at hy
      rw [hy]
      exact hl x (by simp)
    | cons prev acc' =>
      rw [mergeLoop] at hr
      split at hr
      · refine ih (mergeRange x prev :: acc') i _
          (fun y hy => hl y (List.mem_cons_of_mem x hy)) ?_ r hr
        intro y hy
        rcases List.mem_cons.mp hy with h | h
        · subst h
          exact mergeRange_forward (hl x (by simp))
        · exact hacc y (List.mem_cons_of_mem prev h)
      · refine ih (x :: prev :: acc') (i + 1) p
          (fun y hy => hl y (List.mem_cons_of_mem x hy)) ?_ r hr
        intro y hy
        rcases List.mem_cons.mp hy with h | h
        · rw [h]
          exact hl x (by simp)
        · exact hacc y h

theorem normalize_forward {rs : List Range} {p : Nat} {s : Selection}
    (h : normalize rs p = some s) (hf : ∀ r ∈ rs, r.anchor ≤ r.head) :
    ∀ r ∈ s.ranges, r.anchor ≤ r.head := by
  unfold normalize at h
  cases hg : rs.get? p with
  | none => rw [hg] at h; exact absurd h (by simp)
  | some primary =>
    rw [hg] at h
    simp only [Option.some.injEq] at h
    subst h
    exact mergeLoop_forward (sortByFrom rs) [] 0 _
      (fun r hr => hf r (mem_sortByFrom.mp hr)) (by simp)

theorem new_forward {l : List Range} {p : Nat} {s : Selection}
    (h : new l p = some s) (hf : ∀ r ∈ l, r.anchor ≤ r.head) :
    ∀ r ∈ s.ranges, r.anchor ≤ r.head := by
  unfold new at h
  split at h
  · exact absurd h (by simp)
  · split at h
    · simp only [Option.some.injEq] at h
      subst h
      exact hf
    · exact normalize_forward h hf

theorem mergeLoop_primary_zero (l : List Range) :
    ∀ (acc : List Range) (i : Nat), i = acc.length → (mergeLoop l acc i 0).2 = 0 := by
  induction l with
  | nil =>
    intro acc i _
    rw [mergeLoop]
  | cons x rest ih =>
    intro acc i hi
    match acc with
    | [] =>
      rw [mergeLoop]
      exact ih [x] (i + 1) (by simp at hi ⊢; omega)
    | prev :: acc' =>
      rw [mergeLoop]
      simp only [List.length_cons] at hi
      by_cases hov : x.overlaps prev = true
      · rw [if_pos hov, if_neg (by omega : ¬i ≤ 0)]
        exact ih (mergeRange x prev :: acc') i (by simp; omega)
      · rw [if_neg hov]
        exact ih (x :: prev :: acc') (i + 1) (by simp; omega)

theorem new_primary_zero {l : List Range} {s : Selection}
    (hle : l.Pairwise (fun a b => a.from_ ≤ b.from_))
    (h : new l 0 = some s) : s.primary_index = 0 := by
  unfold new at h
  split at h
  · exact absurd h (by simp)
  · split at h
    · simp only [Option.some.injEq] at h
      subst h
      rfl
    · rename_i hne _
      match l, hne with
      | a :: l', _ =>
        unfold normalize at h
        simp only [List.get?_cons_zero] at h
        rw [sortByFrom_eq_self hle] at h
        rw [show (a :: l').findIdx (fun r => decide (r = a)) = 0 from by
          simp [List.findIdx_cons]] at h
        simp only [Option.some.injEq] at h
        subst h
        exact mergeLoop_primary_zero (a :: l') [] 0 rfl

end Selection

/-- `Chain'` transfer along `map`, with every list element known to satisfy a
predicate. -/
theorem chain'_map_of_forall {α β : Type} {P : α → Prop} {R : α → α → Prop}
    {S : β → β → Prop} (f : α → β) :
    ∀ {l : List α}, (∀ x ∈ l, P x) → l.Chain' R →
      (∀ x y, P x → P y → R x y → S (f x) (f y)) → (l.map f).Chain' S := by
  intro l
  induction l with
  | nil => intro _ _ _; simp
  | cons a l ih =>
    intro hP hR h
    obtain ⟨hhead, htail⟩ := List.chain'_cons'.mp hR
    rw [List.map_cons]
    refine List.chain'_cons'.mpr ⟨?_, ih (fun x hx => hP x (List.mem_cons_of_mem a hx)) htail h⟩
    intro b hb
    rw [List.head?_map] at hb
    cases hl : l.head? with
    | none => rw [hl] at hb; simp at hb
    | some x =>
      rw [hl] at hb
      simp only [Option.map_some', Option.mem_def, Option.some.injEq] at hb
      subst hb
      exact h a x (hP a (by simp))
        (hP x (List.mem_cons_of_mem a (List.mem_of_mem_head? (Option.mem_def.mpr hl))))
        (hhead x (by simp [hl]))

/-! ### Facts about the byte/character offset conversion -/

theorem charToByte_nil : ∀ k, charToByte [] k = 0 := by
  intro k
  cases k <;> rfl

theorem charToByte_zero (s : List Char) : charToByte s 0 = 0 := by
  cases s <;> rfl

theorem byteToChar_nil : ∀ b, byteToChar [] b = 0 := by
  intro b
  cases b <;> rfl

theorem byteToChar_zero (s : List Char) : byteToChar s 0 = 0 := by
  cases s <;> rfl

theorem byteToChar_cons_pos (c : Char) (cs : List Char) (b : Nat) (hb : 0 < b) :
    byteToChar (c :: cs) b = byteToChar cs (b - c.utf8Size) + 1 := by
  match b, hb with
  | b + 1, _ => rfl

theorem byteToChar_charToByte : ∀ (s : List Char) (k : Nat), k ≤ s.length →
    byteToChar s (charToByte s k) = k := by
  intro s
  induction s with
  | nil =>
    intro k hk
    simp only [List.length_nil, Nat.le_zero] at hk
    subst hk
    rfl
  | cons c cs ih =>
    intro k hk
    match k with
    | 0 => rfl
    | j + 1 =>
      have hsz := c.utf8Size_pos
      rw [show charToByte (c :: cs) (j + 1) = c.utf8Size + charToByte cs j from rfl]
      rw [byteToChar_cons_pos _ _ _ (by omega)]
      rw [show c.utf8Size + charToByte cs j - c.utf8Size = charToByte cs j from by omega]
      rw [ih j (by simpa using hk)]

theorem byteToChar_mono : ∀ (s : List Char) (b b' : Nat), b ≤ b' →
    byteToChar s b ≤ byteToChar s b' := by
  intro s
  induction s with
  | nil =>
    intro b b' _
    simp [byteToChar_nil]
  | cons c cs ih =>
    intro b b' hbb
    match b with
    | 0 =>
      rw [byteToChar_zero]
      exact Nat.zero_le _
    | j + 1 =>
      match b' with
      | 0 => exact absurd hbb (by omega)
      | j' + 1 =>
        rw [byteToChar_cons_pos _ _ _ (by omega), byteToChar_cons_pos _ _ _ (by omega)]
        have := ih (j + 1 - c.utf8Size) (j' + 1 - c.utf8Size) (by omega)
        omega

theorem charToByte_mono : ∀ (s : List Char) (k k' : Nat), k ≤ k' →
    charToByte s k ≤ charToByte s k' := by
  intro s
  induction s with
  | nil =>
    intro k k' _
    simp [charToByte_nil]
  | cons c cs ih =>
    intro k k' hkk
    match k with
    | 0 =>
      rw [charToByte_zero]
      exact Nat.zero_le _
    | j + 1 =>
      match k' with
      | 0 => exact absurd hkk (by omega)
      | j' + 1 =>
        rw [show charToByte (c :: cs) (j + 1) = c.utf8Size + charToByte cs j from rfl]
        rw [show charToByte (c :: cs) (j' + 1) = c.utf8Size + charToByte cs j' from rfl]
        have := ih j j' (by omega)
        omega

theorem charToByte_lt : ∀ (s : List Char) (k k' : Nat), k < k' → k' ≤ s.length →
    charToByte s k < charToByte s k' := by
  intro s
  induction s with
  | nil =>
    intro k k' hkk hk'
    simp only [List.length_nil, Nat.le_zero] at hk'
    omega
  | cons c cs ih =>
    intro k k' hkk hk'
    match k' with
    | 0 => omega
    | j' + 1 =>
      rw [show charToByte (c :: cs) (j' + 1) = c.utf8Size + charToByte cs j' from rfl]
      have hsz := c.utf8Size_pos
      match k with
      | 0 =>
        rw [charToByte_zero]
        omega
      | j + 1 =>
        rw [show charToByte (c :: cs) (j + 1) = c.utf8Size + charToByte cs j from rfl]
        have := ih j j' (by omega) (by simpa using hk')
        omega

theorem charToByte_add : ∀ (a : Nat) (s : List Char) (b : Nat),
    charToByte s (a + b) = charToByte s a + charToByte (s.drop a) b := by
  intro a
  induction a with
  | zero =>
    intro s b
    simp [charToByte_zero]
  | succ j ih =>
    intro s b
    match s with
    | [] => simp [charToByte_nil]
    | c :: cs =>
      rw [show j + 1 + b = (j + b) + 1 from by omega]
      rw [show charToByte (c :: cs) ((j + b) + 1) = c.utf8Size + charToByte cs (j + b) from rfl]
      rw [ih cs b]
      rw [show charToByte (c :: cs) (j + 1) = c.utf8Size + charToByte cs j from rfl]
      rw [show (c :: cs).drop (j + 1) = cs.drop j from rfl]
      omega

theorem charToByte_take : ∀ (s : List Char) (m k : Nat), k ≤ m →
    charToByte (s.take m) k = charToByte s k := by
  intro s
  induction s with
  | nil =>
    intro m k _
    simp
  | cons c cs ih =>
    intro m k hkm
    match m with
    | 0 =>
      simp only [Nat.le_zero] at hkm
      subst hkm
      simp [charToByte_zero]
    | j + 1 =>
      rw [show (c :: cs).take (j + 1) = c :: cs.take j from rfl]
      match k with
      | 0 => simp [charToByte_zero]
      | i + 1 =>
        rw [show charToByte (c :: cs.take j) (i + 1) = c.utf8Size + charToByte (cs.take j) i from rfl]
        rw [show charToByte (c :: cs) (i + 1) = c.utf8Size + charToByte cs i from rfl]
        rw [ih j i (by omega)]

theorem fragment_length {r : Range} {t : List Char} (h : r.to_ ≤ t.length) :
    (r.fragment t).length = r.to_ - r.from_ := by
  unfold Range.fragment
  rw [List.length_take, List.length_drop]
  have := r.from_le_to
  omega

theorem charToByte_fragment (r : Range) (t : List Char) (k : Nat)
    (hk : k ≤ r.to_ - r.from_) :
    charToByte t r.from_ + charToByte (r.fragment t) k = charToByte t (r.from_ + k) := by
  unfold Range.fragment
  rw [charToByte_take _ _ _ hk, charToByte_add r.from_ t k]

theorem byteToChar_fragment_boundary (r : Range) (t : List Char) (k : Nat)
    (hto : r.to_ ≤ t.length) (hk : k ≤ r.to_ - r.from_) :
    byteToChar t (charToByte t r.from_ + charToByte (r.fragment t) k) = r.from_ + k := by
  rw [charToByte_fragment r t k hk]
  have := r.from_le_to
  exact byteToChar_charToByte t (r.from_ + k) (by omega)

theorem utf8Len_fragment (r : Range) (t : List Char) (hto : r.to_ ≤ t.length) :
    charToByte t r.from_ + utf8Len (r.fragment t) = charToByte t r.to_ := by
  have hlen : (r.fragment t).length = r.to_ - r.from_ := fragment_length hto
  rw [show utf8Len (r.fragment t) = charToByte (r.fragment t) (r.to_ - r.from_) from by
    rw [utf8Len, hlen]]
  rw [charToByte_fragment r t _ (Nat.le_refl _)]
  have := r.from_le_to
  rw [show r.from_ + (r.to_ - r.from_) = r.to_ from by omega]

theorem byteToChar_start (r : Range) (t : List Char) (h : r.from_ ≤ t.length) :
    byteToChar t (charToByte t r.from_) = r.from_ :=
  byteToChar_charToByte t r.from_ h

/-! ### Facts about `select_on_matches` -/

/-- For a well-formed matcher and an in-bounds range, the per-range ranges of
`select_on_matches` are sorted by start, stay inside the original range, and
are forward-oriented. -/
theorem selectRange_facts {t : List Char} {sel : Range} {rx : Regex} (hw : rx.wf)
    (hbnd : sel.to_ ≤ t.length) :
    (selectRange t sel rx).Chain' (fun a b => a.from_ ≤ b.from_) ∧
      ∀ r ∈ selectRange t sel rx,
        sel.from_ ≤ r.from_ ∧ r.from_ ≤ sel.to_ ∧ r.anchor ≤ r.head ∧ r.to_ ≤ sel.to_ := by
  have hfl := sel.from_le_to
  have hfrom : sel.from_ ≤ t.length := by omega
  have hstart : byteToChar t (charToByte t sel.from_) = sel.from_ := byteToChar_start sel t hfrom
  obtain ⟨hmem, hchain⟩ := hw (sel.fragment t)
  have hfact : ∀ m ∈ rx.find_iter (sel.fragment t),
      sel.from_ ≤ byteToChar t (charToByte t sel.from_ + m.1) ∧
        byteToChar t (charToByte t sel.from_ + m.1) ≤
          byteToChar t (charToByte t sel.from_ + m.2) ∧
        byteToChar t (charToByte t sel.from_ + m.2) ≤ sel.to_ := by
    intro m hm
    obtain ⟨h12, hlen⟩ := hmem m hm
    refine ⟨?_, byteToChar_mono t _ _ (by omega), ?_⟩
    · calc sel.from_ = byteToChar t (charToByte t sel.from_) := hstart.symm
        _ ≤ _ := byteToChar_mono t _ _ (by omega)
    · have h1 : charToByte t sel.from_ + m.2 ≤ charToByte t sel.to_ := by
        have := utf8Len_fragment sel t hbnd
        omega
      calc byteToChar t (charToByte t sel.from_ + m.2)
          ≤ byteToChar t (charToByte t sel.to_) := byteToChar_mono t _ _ h1
        _ = sel.to_ := byteToChar_charToByte t sel.to_ hbnd
  constructor
  · simp only [selectRange]
    refine chain'_map_of_forall _ (fun m hm => hm) hchain ?_
    intro m1 m2 hm1 hm2 hr
    obtain ⟨f1, o1, _⟩ := hfact m1 hm1
    obtain ⟨f2, o2, _⟩ := hfact m2 hm2
    rw [Range.new_from_of_le o1, Range.new_from_of_le o2]
    have hbr : byteToChar t (charToByte t sel.from_ + m1.2) ≤
        byteToChar t (charToByte t sel.from_ + m2.1) :=
      byteToChar_mono t _ _ (by omega)
    omega
  · intro r hr
    simp only [selectRange, List.mem_map] at hr
    obtain ⟨m, hm, rfl⟩ := hr
    obtain ⟨f1, o1, e1⟩ := hfact m hm
    refine ⟨?_, ?_, o1, ?_⟩
    · rw [Range.new_from_of_le o1]
      exact f1
    · rw [Range.new_from_of_le o1]
      omega
    · rw [Range.new_to_of_le o1]
      exact e1

/-- With non-empty matches on encoded-character boundaries, the per-range
ranges are strictly separated and strictly non-empty. -/
theorem selectRange_facts_strong {t : List Char} {sel : Range} {rx : Regex} (hw : rx.wf)
    (hws : rx.wfStrong) (hbnd : sel.to_ ≤ t.length) :
    (selectRange t sel rx).Chain' Range.sep ∧
      ∀ r ∈ selectRange t sel rx,
        sel.from_ ≤ r.from_ ∧ r.from_ < r.to_ ∧ r.to_ ≤ sel.to_ := by
  have hfl := sel.from_le_to
  obtain ⟨hmem, hchain⟩ := hw (sel.fragment t)
  have hflen : (sel.fragment t).length = sel.to_ - sel.from_ := fragment_length hbnd
  have hfact : ∀ m ∈ rx.find_iter (sel.fragment t),
      ∃ ks ke, ks < ke ∧ ke ≤ sel.to_ - sel.from_ ∧
        byteToChar t (charToByte t sel.from_ + m.1) = sel.from_ + ks ∧
        byteToChar t (charToByte t sel.from_ + m.2) = sel.from_ + ke := by
    intro m hm
    obtain ⟨hlt, ⟨ks, hks, hks2⟩, ⟨ke, hke, hke2⟩⟩ := hws (sel.fragment t) m hm
    rw [hflen] at hks hke
    have hkk : ks < ke := by
      by_contra hc
      push_neg at hc
      have := charToByte_mono (sel.fragment t) ke ks hc
      omega
    refine ⟨ks, ke, hkk, hke, ?_, ?_⟩
    · rw [hks2]
      exact byteToChar_fragment_boundary sel t ks hbnd (by omega)
    · rw [hke2]
      exact byteToChar_fragment_boundary sel t ke hbnd (by omega)
  constructor
  · simp only [selectRange]
    refine chain'_map_of_forall _ (fun m hm => hm) hchain ?_
    intro m1 m2 hm1 hm2 hr
    obtain ⟨ks1, ke1, hk1, hb1, hs1, he1⟩ := hfact m1 hm1
    obtain ⟨ks2, ke2, hk2, hb2, hs2, he2⟩ := hfact m2 hm2
    have ho1 : byteToChar t (charToByte t sel.from_ + m1.1) ≤
        byteToChar t (charToByte t sel.from_ + m1.2) := by
      rw [hs1, he1]
      omega
    have ho2 : byteToChar t (charToByte t sel.from_ + m2.1) ≤
        byteToChar t (charToByte t sel.from_ + m2.2) := by
      rw [hs2, he2]
      omega
    have hbr : byteToChar t (charToByte t sel.from_ + m1.2) ≤
        byteToChar t (charToByte t sel.from_ + m2.1) :=
      byteToChar_mono t _ _ (by omega)
    unfold Range.sep
    rw [Range.new_from_of_le ho1, Range.new_from_of_le ho2, Range.new_to_of_le ho1]
    omega
  · intro r hr
    simp only [selectRange, List.mem_map] at hr
    obtain ⟨m, hm, rfl⟩ := hr
    obtain ⟨ks, ke, hk, hb2, hs, he⟩ := hfact m hm
    have ho : byteToChar t (charToByte t sel.from_ + m.1) ≤
        byteToChar t (charToByte t sel.from_ + m.2) := by
      rw [hs, he]
      omega
    refine ⟨?_, ?_, ?_⟩
    · rw [Range.new_from_of_le ho, hs]
      omega
    · rw [Range.new_from_of_le ho, Range.new_to_of_le ho, hs, he]
      omega
    · rw [Range.new_to_of_le ho, he]
      omega

/-- Joining the per-range blocks over a selection whose ranges are separated
(`to ≤ from` pairwise) keeps the result sorted by start. -/
theorem flatMap_chain_le {t : List Char} {rx : Regex} (hw : rx.wf) :
    ∀ (sels : List Range), (∀ sel ∈ sels, sel.to_ ≤ t.length) →
      sels.Pairwise (fun a b => a.to_ ≤ b.from_) →
      ((sels.flatMap (fun sel => selectRange t sel rx)).Chain'
          (fun a b => a.from_ ≤ b.from_) ∧
        ∀ r ∈ sels.flatMap (fun sel => selectRange t sel rx),
          ∃ sel ∈ sels, sel.from_ ≤ r.from_ ∧ r.from_ ≤ sel.to_) := by
  intro sels
  induction sels with
  | nil =>
    intro _ _
    simp
  | cons sel rest ih =>
    intro hbnd hsep
    obtain ⟨hsel_head, hsep'⟩ := List.pairwise_cons.mp hsep
    obtain ⟨ihc, ihm⟩ := ih (fun x hx => hbnd x (List.mem_cons_of_mem _ hx)) hsep'
    obtain ⟨bc, bm⟩ := selectRange_facts hw (hbnd sel (by simp))
    rw [List.flatMap_cons]
    constructor
    · rw [List.chain'_append]
      refine ⟨bc, ihc, ?_⟩
      intro x hx y hy
      have hxm := List.mem_of_mem_getLast? hx
      have hym := List.mem_of_mem_head? hy
      obtain ⟨sel', hsel', h1, h2⟩ := ihm y hym
      have hxb := bm x hxm
      have hss := hsel_head sel' hsel'
      omega
    · intro r hr
      rcases List.mem_append.mp hr with h | h
      · exact ⟨sel, by simp, (bm r h).1, (bm r h).2.1⟩
      · obtain ⟨sel', hsel', hh⟩ := ihm r h
        exact ⟨sel', List.mem_cons_of_mem _ hsel', hh⟩

/-- The strong joining lemma: with non-empty boundary-aligned matches the
whole result is strictly separated. -/
theorem flatMap_chain_sep {t : List Char} {rx : Regex} (hw : rx.wf) (hws : rx.wfStrong) :
    ∀ (sels : List Range), (∀ sel ∈ sels, sel.to_ ≤ t.length) →
      sels.Pairwise (fun a b => a.to_ ≤ b.from_) →
      ((sels.flatMap (fun sel => selectRange t sel rx)).Chain' Range.sep ∧
        ∀ r ∈ sels.flatMap (fun sel => selectRange t sel rx),
          ∃ sel ∈ sels, sel.from_ ≤ r.from_ ∧ r.from_ < r.to_ ∧ r.to_ ≤ sel.to_) := by
  intro sels
  induction sels with
  | nil =>
    intro _ _
    simp
  | cons sel rest ih =>
    intro hbnd hsep
    obtain ⟨hsel_head, hsep'⟩ := List.pairwise_cons.mp hsep
    obtain ⟨ihc, ihm⟩ := ih (fun x hx => hbnd x (List.mem_cons_of_mem _ hx)) hsep'
    obtain ⟨bc, bm⟩ := selectRange_facts_strong hw hws (hbnd sel (by simp))
    rw [List.flatMap_cons]
    constructor
    · rw [List.chain'_append]
      refine ⟨bc, ihc, ?_⟩
      intro x hx y hy
      have hxm := List.mem_of_mem_getLast? hx
      have hym := List.mem_of_mem_head? hy
      obtain ⟨sel', hsel', h1, h2, h3⟩ := ihm y hym
      have hxb := bm x hxm
      have hss := hsel_head sel' hsel'
      unfold Range.sep
      omega
    · intro r hr
      rcases List.mem_append.mp hr with h | h
      · exact ⟨sel, by simp, bm r h⟩
      · obtain ⟨sel', hsel', hh⟩ := ihm r h
        exact ⟨sel', List.mem_cons_of_mem _ hsel', hh⟩

/-- A valid selection's ranges are pairwise separated by `to ≤ from`. -/
theorem valid_to_le_from {s : Selection} (hv : s.valid) :
    s.ranges.Pairwise (fun a b => a.to_ ≤ b.from_) := by
  refine (hv.2.1.and hv.2.2.1).imp ?_
  rintro a b ⟨hle, hno⟩
  exact (Range.sep_of_le_of_not_overlaps hle (by rw [← Range.overlaps_comm]; exact hno)).2

/-! ### Tracking of the primary range through the merge sweep -/

namespace Selection

/-- Through the merge sweep the primary index keeps pointing at a range whose
span contains the original primary range's span.  The invariant: either the
primary has already been placed (`p < i`, and the output range at position `p`
— stored at `acc.get? (i - 1 - p)` in the reversed accumulator — contains the
primary's span), or the primary is still in the remaining input at position
`p - i` and every accumulated range starts at or before it. -/
theorem mergeLoop_primary_track (l : List Range) :
    ∀ (acc : List Range) (i p : Nat) (primary : Range),
      l.Pairwise (fun a b => a.from_ ≤ b.from_) →
      i = acc.length →
      ((p < i ∧ ∃ r, acc.get? (i - 1 - p) = some r ∧
          r.from_ ≤ primary.from_ ∧ primary.to_ ≤ r.to_) ∨
        (i ≤ p ∧ l.get? (p - i) = some primary ∧ ∀ a ∈ acc, a.from_ ≤ primary.from_)) →
      ∃ r, (mergeLoop l acc i p).1.get? (mergeLoop l acc i p).2 = some r ∧
        r.from_ ≤ primary.from_ ∧ primary.to_ ≤ r.to_ := by
  induction l with
  | nil =>
    intro acc i p primary _ hi hst
    rw [mergeLoop]
    rcases hst with ⟨hpi, r, hr, h1, h2⟩ | ⟨_, hget, _⟩
    · refine ⟨r, ?_, h1, h2⟩
      rw [List.get?_reverse (by omega)]
      rw [show acc.length - 1 - p = i - 1 - p from by omega]
      exact hr
    · simp at hget
  | cons x rest ih =>
    intro acc i p primary hl hi hst
    obtain ⟨hx, hrest⟩ := List.pairwise_cons.mp hl
    cases acc with
    | nil =>
      rw [mergeLoop]
      simp only [List.length_nil] at hi
      rcases hst with ⟨hpi, _⟩ | ⟨_, hget, _⟩
      · exact absurd hpi (by omega)
      · refine ih [x] (i + 1) p primary hrest (by simp [hi]) ?_
        by_cases hq : p = i
        · have hpx : x = primary := by
            rw [hq, Nat.sub_self] at hget
            simpa using hget
          left
          refine ⟨by omega, x, ?_, Nat.le_of_eq (by rw [hpx]), Nat.le_of_eq (by rw [hpx])⟩
          rw [show (i + 1) - 1 - p = 0 from by omega]
          rfl
        · right
          have hpi1 : p - i = (p - (i + 1)) + 1 := by omega
          rw [hpi1] at hget
          simp only [List.get?_cons_succ] at hget
          refine ⟨by omega, hget, ?_⟩
          intro a ha
          simp only [List.mem_singleton] at ha
          rw [ha]
          exact hx primary (List.get?_mem hget)
    | cons prev acc' =>
      rw [mergeLoop]
      simp only [List.length_cons] at hi
      by_cases hov : x.overlaps prev = true
      · rw [if_pos hov]
        refine ih (mergeRange x prev :: acc') i _ primary hrest (by simp; omega) ?_
        rcases hst with ⟨hpi, r, hr, h1, h2⟩ | ⟨hip, hget, hbnd⟩
        · rw [if_neg (by omega)]
          left
          refine ⟨hpi, ?_⟩
          by_cases htop : i - 1 - p = 0
          · rw [htop] at hr
            simp only [List.get?_cons_zero, Option.some.injEq] at hr
            refine ⟨mergeRange x prev, by rw [htop]; rfl, ?_, ?_⟩
            · rw [mergeRange_from, hr]
              exact h1
            · rw [mergeRange_to]
              have := Nat.le_max_right x.to_ prev.to_
              rw [hr] at this ⊢
              omega
          · obtain ⟨k, hk⟩ : ∃ k, i - 1 - p = k + 1 := ⟨i - 1 - p - 1, by omega⟩
            rw [hk] at hr ⊢
            simp only [List.get?_cons_succ] at hr ⊢
            exact ⟨r, hr, h1, h2⟩
        · rw [if_pos (by omega)]
          by_cases hq : p = i
          · have hpx : x = primary := by
              rw [hq, Nat.sub_self] at hget
              simpa using hget
            left
            refine ⟨by omega, mergeRange x prev, ?_, ?_, ?_⟩
            · rw [show i - 1 - (p - 1) = 0 from by omega]
              rfl
            · rw [mergeRange_from]
              exact hbnd prev (by simp)
            · rw [mergeRange_to, ← hpx]
              exact Nat.le_max_left _ _
          · right
            have hpi1 : p - i = (p - 1 - i) + 1 := by omega
            rw [hpi1] at hget
            simp only [List.get?_cons_succ] at hget
            refine ⟨by omega, hget, ?_⟩
            intro a ha
            rcases List.mem_cons.mp ha with h | h
            · rw [h, mergeRange_from]
              exact hbnd prev (by simp)
            · exact hbnd a (List.mem_cons_of_mem prev h)
      · rw [if_neg hov]
        refine ih (x :: prev :: acc') (i + 1) p primary hrest (by simp; omega) ?_
        rcases hst with ⟨hpi, r, hr, h1, h2⟩ | ⟨hip, hget, hbnd⟩
        · left
          refine ⟨by omega, r, ?_, h1, h2⟩
          rw [show (i + 1) - 1 - p = (i - 1 - p) + 1 from by omega]
          simpa using hr
        · by_cases hq : p = i
          · have hpx : x = primary := by
              rw [hq, Nat.sub_self] at hget
              simpa using hget
            left
            refine ⟨by omega, x, ?_, Nat.le_of_eq (by rw [hpx]), Nat.le_of_eq (by rw [hpx])⟩
            rw [show (i + 1) - 1 - p = 0 from by omega]
            rfl
          · right
            have hpi1 : p - i = (p - (i + 1)) + 1 := by omega
            rw [hpi1] at hget
            simp only [List.get?_cons_succ] at hget
            refine ⟨by omega, hget, ?_⟩
            intro a ha
            rcases List.mem_cons.mp ha with h | h
            · rw [h]
              exact hx primary (List.get?_mem hget)
            · exact hbnd a h

/-- `Selection::normalize` leaves the primary index pointing at the range that
subsumed the original primary: its span contains the original primary's span. -/
theorem normalize_primary_subsumes {rs : List Range} {p : Nat} {primary : Range}
    {s : Selection} (hg : rs.get? p = some primary) (h : normalize rs p = some s) :
    ∃ r, s.ranges.get? s.primary_index = some r ∧
      r.from_ ≤ primary.from_ ∧ primary.to_ ≤ r.to_ := by
  unfold normalize at h
  rw [hg] at h
  simp only [Option.some.injEq] at h
  subst h
  have hmem : primary ∈ sortByFrom rs := mem_sortByFrom.mpr (List.get?_mem hg)
  have hidx : (sortByFrom rs).findIdx (fun r => decide (r = primary)) <
      (sortByFrom rs).length :=
    List.findIdx_lt_length_of_exists ⟨primary, hmem, by simp⟩
  have hget : (sortByFrom rs).get? ((sortByFrom rs).findIdx (fun r => decide (r = primary))) =
      some primary := by
    have h2 := @List.findIdx_getElem _ (fun r => decide (r = primary)) (sortByFrom rs) hidx
    simp only [decide_eq_true_eq] at h2
    rw [List.get?_eq_get hidx]
    exact congrArg some h2
  exact mergeLoop_primary_track (sortByFrom rs) [] 0 _ primary (sortByFrom_sorted rs) rfl
    (Or.inr ⟨Nat.zero_le _, by simpa using hget, by simp⟩)

end Selection

/-! ### Claims C2, C3, C4, C8, C9, C10 -/

/-- C2: normalization merges overlapping ranges into `[min(start), max(end)]`:
the eight-range example collapses to the spans `0-6, 6-7, 7-8, 9-13, 13-14` in
that order, and the adjacent zero-width example to `8-10, 10-12, 12-12`. -/
theorem claim_C2 :
    Option.map Selection.ranges
        (Selection.new [Range.new 10 12, Range.new 6 7, Range.new 4 5, Range.new 3 4,
          Range.new 0 6, Range.new 7 8, Range.new 9 13, Range.new 13 14] 0) =
      some [Range.new 0 6, Range.new 6 7, Range.new 7 8, Range.new 9 13, Range.new 13 14] ∧
    Option.map Selection.ranges
        (Selection.new [Range.new 10 12, Range.new 12 12, Range.new 12 12,
          Range.new 10 10, Range.new 8 10] 0) =
      some [Range.new 8 10, Range.new 10 12, Range.new 12 12] :=
  ⟨by decide, by decide⟩

/-- C3: normalization tracks the primary range by value through sorting and
merging, decrementing the index for each merge at or before it, so that the
final primary index points at the range that subsumed the original primary —
in general the final primary's span contains the original primary's span, and
concretely the ranges `(0,2), (1,5), (4,7)` with primary index 2 normalize to
the single merged span `0-7` with primary index 0. -/
theorem claim_C3 :
    (∀ (rs : List Range) (p : Nat) (primary : Range) (s : Selection),
        rs.get? p = some primary → Selection.normalize rs p = some s →
        ∃ r, s.ranges.get? s.primary_index = some r ∧
          r.from_ ≤ primary.from_ ∧ primary.to_ ≤ r.to_) ∧
      Selection.new [Range.new 0 2, Range.new 1 5, Range.new 4 7] 2 =
        some { ranges := [Range.new 0 7], primary_index := 0 } :=
  ⟨fun _ _ _ _ hg h => Selection.normalize_primary_subsumes hg h, by decide⟩

/-- Witness for C3: the general primary-tracking statement applied at the
concrete example — the final primary `(0,7)` subsumes the original primary
`(4,7)`. -/
theorem claim_C3_witness :
    ∃ r, ({ ranges := [Range.new 0 7], primary_index := 0 } : Selection).ranges.get?
        ({ ranges := [Range.new 0 7], primary_index := 0 } : Selection).primary_index =
          some r ∧
      r.from_ ≤ (Range.new 4 7).from_ ∧ (Range.new 4 7).to_ ≤ r.to_ :=
  claim_C3.1 [Range.new 0 2, Range.new 1 5, Range.new 4 7] 2 (Range.new 4 7)
    { ranges := [Range.new 0 7], primary_index := 0 } (by decide) (by decide)

/-- C4: `overlaps` is true exactly when the ranges share a start or their spans
properly intersect; in particular `(0,3)`/`(3,6)` and `(0,3)`/`(3,3)` do not
overlap while `(1,1)`/`(1,4)` and `(1,1)`/`(1,1)` do. -/
theorem claim_C4 :
    (∀ a b : Range, a.overlaps b = true ↔
        (a.from_ = b.from_ ∨ (b.from_ < a.to_ ∧ a.from_ < b.to_))) ∧
      (Range.new 0 3).overlaps (Range.new 3 6) = false ∧
      (Range.new 0 3).overlaps (Range.new 3 3) = false ∧
      (Range.new 1 1).overlaps (Range.new 1 4) = true ∧
      (Range.new 1 1).overlaps (Range.new 1 1) = true :=
  ⟨Range.overlaps_eq_true, by decide, by decide, by decide, by decide⟩

/-- C8: mapping a `Selection` through an empty change set is the identity —
the very same selection value is returned, without remapping any range (the
change set's `map_pos` is never consulted). -/
theorem claim_C8 (s : Selection) (changes : ChangeSet) (h : changes.is_empty = true) :
    s.map changes = some s := by
  unfold Selection.map
  rw [h]
  simp

/-- Witness for C8 at a concrete selection and a concrete empty change set
whose `map_pos` would move every offset if it were consulted. -/
theorem claim_C8_witness :
    (Selection.point 3).map { is_empty := true, map_pos := fun n _ => n + 1000 } =
      some (Selection.point 3) :=
  claim_C8 (Selection.point 3) { is_empty := true, map_pos := fun n _ => n + 1000 } rfl

/-- C9: for `from ≤ to`, `extend` covers at least `[from, to]`, keeps the
anchor/head ordering of the original range, and resets `horiz` to `none`. -/
theorem claim_C9 (r : Range) (f t : Nat) (_h : f ≤ t) :
    (r.extend f t).from_ ≤ f ∧ t ≤ (r.extend f t).to_ ∧
      (r.anchor ≤ r.head → (r.extend f t).anchor ≤ (r.extend f t).head) ∧
      (r.head < r.anchor → (r.extend f t).head ≤ (r.extend f t).anchor) ∧
      (r.extend f t).horiz = none := by
  unfold Range.extend Range.from_ Range.to_
  split <;> refine ⟨?_, ?_, ?_, ?_, rfl⟩ <;> simp <;> omega

/-- Witness for C9 at the backward range `(5,2)` extended to cover `[1,7]`. -/
theorem claim_C9_witness :
    ((Range.new 5 2).extend 1 7).from_ ≤ 1 ∧ 7 ≤ ((Range.new 5 2).extend 1 7).to_ ∧
      ((Range.new 5 2).anchor ≤ (Range.new 5 2).head →
        ((Range.new 5 2).extend 1 7).anchor ≤ ((Range.new 5 2).extend 1 7).head) ∧
      ((Range.new 5 2).head < (Range.new 5 2).anchor →
        ((Range.new 5 2).extend 1 7).head ≤ ((Range.new 5 2).extend 1 7).anchor) ∧
      ((Range.new 5 2).extend 1 7).horiz = none :=
  claim_C9 (Range.new 5 2) 1 7 (by decide)

/-- The length of the split loop's output: one range per match, plus a final
range exactly when the position after the last match is still strictly before
the end of the selection. -/
theorem splitGo_length_getLast (t : List Char) (sb se : Nat) :
    ∀ (ms : List (Nat × Nat)) (st : Nat) (m : Nat × Nat), ms.getLast? = some m →
      (splitGo t sb se ms st).length =
        ms.length + (if byteToChar t (sb + m.2) < se then 1 else 0) := by
  intro ms
  induction ms with
  | nil =>
    intro st m h
    simp at h
  | cons m0 rest ih =>
    intro st m h
    obtain ⟨a, b⟩ := m0
    cases rest with
    | nil =>
      simp only [List.getLast?_singleton, Option.some.injEq] at h
      subst h
      simp only [splitGo, List.length_cons, List.length_singleton, List.length_nil]
      split <;> simp
    | cons m1 rest' =>
      have h' : (m1 :: rest').getLast? = some m := by
        rw [← List.getLast?_cons_cons]
        exact h
      rw [show splitGo t sb se ((a, b) :: m1 :: rest') st =
          Range.new st (byteToChar t (sb + a)) ::
            splitGo t sb se (m1 :: rest') (byteToChar t (sb + b)) from rfl]
      rw [List.length_cons, ih _ m h']
      simp only [List.length_cons]
      omega

/-- C5: a zero-width range passes through `split_on_matches` unchanged; for a
non-zero-width range a match at the very start of the fragment yields a
leading zero-width range, while a match ending at the very end of the fragment
yields no trailing range (one output range per match, no extra); and the
concrete whitespace-split example produces exactly the ranges
`(0,0), (1,5), (6,9), (11,13), (16,19)` with fragments
`"", "abcd", "efg", "rs", "xyz"`. -/
theorem claim_C5 :
    (∀ (t : List Char) (sel : Range) (rx : Regex), sel.from_ = sel.to_ →
        splitRange t sel rx = [sel]) ∧
      (∀ (t : List Char) (sel : Range) (rx : Regex) (e : Nat) (rest : List (Nat × Nat)),
        ¬sel.from_ = sel.to_ → sel.to_ ≤ t.length →
        rx.find_iter (sel.fragment t) = (0, e) :: rest →
        (splitRange t sel rx).head? = some (Range.new sel.from_ sel.from_)) ∧
      (∀ (t : List Char) (sel : Range) (rx : Regex) (m : Nat × Nat),
        ¬sel.from_ = sel.to_ → sel.to_ ≤ t.length →
        (rx.find_iter (sel.fragment t)).getLast? = some m →
        m.2 = utf8Len (sel.fragment t) →
        (splitRange t sel rx).length = (rx.find_iter (sel.fragment t)).length) ∧
      split_on_matches exText exSel wsRegex =
        some { ranges := [Range.new 0 0, Range.new 1 5, Range.new 6 9,
                 Range.new 11 13, Range.new 16 19], primary_index := 0 } ∧
      Option.map (fun s => s.ranges.map (fun r => r.fragment exText))
          (split_on_matches exText exSel wsRegex) =
        some [[], ['a', 'b', 'c', 'd'], ['e', 'f', 'g'], ['r', 's'], ['x', 'y', 'z']] := by
  refine ⟨?_, ?_, ?_, by decide, by decide⟩
  · intro t sel rx h
    simp [splitRange, h]
  · intro t sel rx e rest hne hto hfind
    have hfl := sel.from_le_to
    have hfrom : sel.from_ ≤ t.length := by omega
    simp only [splitRange, if_neg hne]
    rw [hfind]
    simp only [splitGo, List.head?_cons, Option.some.injEq, Nat.add_zero]
    rw [byteToChar_start sel t hfrom]
  · intro t sel rx m hne hto hlast hm2
    simp only [splitRange, if_neg hne]
    rw [splitGo_length_getLast t (charToByte t sel.from_) sel.to_ _ sel.from_ m hlast]
    rw [hm2, utf8Len_fragment sel t hto]
    rw [byteToChar_charToByte t sel.to_ hto]
    simp

/-- Witness for C5: the general parts applied at the example text with the
whitespace matcher — a zero-width range at 2, the range `(0,9)` whose fragment
starts with a match, and the range `(11,20)` whose fragment ends with one. -/
theorem claim_C5_witness :
    splitRange exText (Range.new 2 2) wsRegex = [Range.new 2 2] ∧
      (splitRange exText (Range.new 0 9) wsRegex).head? = some (Range.new 0 0) ∧
      (splitRange exText (Range.new 11 20) wsRegex).length =
        (wsRegex.find_iter ((Range.new 11 20).fragment exText)).length :=
  ⟨claim_C5.1 exText (Range.new 2 2) wsRegex (by decide),
    claim_C5.2.1 exText (Range.new 0 9) wsRegex 1 [(5, 6)] (by decide) (by decide) (by decide),
    claim_C5.2.2.1 exText (Range.new 11 20) wsRegex (8, 9) (by decide) (by decide)
      (by decide) (by decide)⟩

/-- C6: for a valid input selection, `keep_matches` returns `none` exactly when
no range's fragment has a match; otherwise it returns exactly the matching
ranges, unchanged and in order, with the primary index reset to the first
range. -/
theorem claim_C6 (t : List Char) (s : Selection) (rx : Regex) (hv : s.valid) :
    (keep_matches t s rx = none ↔
        ∀ r ∈ s.ranges, rx.is_match (r.fragment t) = false) ∧
      ∀ s', keep_matches t s rx = some s' →
        s' = { ranges := s.ranges.filter (fun r => rx.is_match (r.fragment t))
               primary_index := 0 } := by
  have hsub : List.Sublist (s.ranges.filter (fun r => rx.is_match (r.fragment t))) s.ranges :=
    List.filter_sublist s.ranges
  have hle := List.Pairwise.sublist hsub hv.2.1
  have hno := List.Pairwise.sublist hsub hv.2.2.1
  constructor
  · constructor
    · intro h
      simp only [keep_matches] at h
      split at h
      · rename_i hemp
        rw [List.isEmpty_iff, List.filter_eq_nil_iff] at hemp
        intro r hr
        have := hemp r hr
        simpa using this
      · rename_i hemp
        have hne : s.ranges.filter (fun r => rx.is_match (r.fragment t)) ≠ [] := by
          intro hnil
          exact hemp (by simp [hnil])
        rw [Selection.new_of_sorted hne hle hno] at h
        exact absurd h (by simp)
    · intro hall
      simp only [keep_matches]
      rw [if_pos ?_]
      rw [List.isEmpty_iff, List.filter_eq_nil_iff]
      intro r hr
      simp [hall r hr]
  · intro s' h
    simp only [keep_matches] at h
    split at h
    · exact absurd h (by simp)
    · rename_i hemp
      have hne : s.ranges.filter (fun r => rx.is_match (r.fragment t)) ≠ [] := by
        intro hnil
        exact hemp (by simp [hnil])
      rw [Selection.new_of_sorted hne hle hno] at h
      simp only [Option.some.injEq] at h
      exact h.symm

/-- Witness for C6 at a concrete text, valid two-range selection and matcher
(only the second fragment contains the letter `b`). -/
theorem claim_C6_witness :
    (keep_matches c6Text c6Sel c6Rx = none ↔
        ∀ r ∈ c6Sel.ranges, c6Rx.is_match (r.fragment c6Text) = false) ∧
      ∀ s', keep_matches c6Text c6Sel c6Rx = some s' →
        s' = { ranges := c6Sel.ranges.filter (fun r => c6Rx.is_match (r.fragment c6Text))
               primary_index := 0 } :=
  claim_C6 c6Text c6Sel c6Rx (by decide)

/-- C7 (amended): for a valid in-bounds selection and a well-formed matcher,
`select_on_matches` returns `none` exactly when no range's fragment has a
match; any returned selection has primary index 0 and only forward
(anchor ≤ head) ranges; and *provided* the matcher's matches are non-empty
and boundary-aligned, the result consists of exactly one range per match —
the match's byte span translated to character offsets, in order.  The
non-emptiness proviso is necessary: `claim_C7_counterexample` shows a
contract-satisfying empty-match engine for which normalization merges two of
the created ranges, so the unqualified one-range-per-match clause fails. -/
theorem claim_C7 (t : List Char) (s : Selection) (rx : Regex)
    (hv : s.valid) (hb : ∀ r ∈ s.ranges, r.to_ ≤ t.length) (hw : rx.wf) :
    (select_on_matches t s rx = none ↔
        ∀ r ∈ s.ranges, rx.find_iter (r.fragment t) = []) ∧
      (∀ s', select_on_matches t s rx = some s' →
        s'.primary_index = 0 ∧ ∀ r ∈ s'.ranges, r.anchor ≤ r.head) ∧
      (rx.wfStrong → ∀ s', select_on_matches t s rx = some s' →
        s'.ranges = s.ranges.flatMap (fun sel => selectRange t sel rx)) := by
  have hsels := valid_to_le_from hv
  refine ⟨⟨?_, ?_⟩, ?_, ?_⟩
  · intro h
    simp only [select_on_matches] at h
    split at h
    · rename_i hemp
      rw [List.isEmpty_iff] at hemp
      intro r hr
      have hsr := List.flatMap_eq_nil_iff.mp hemp r hr
      simp only [selectRange] at hsr
      exact List.map_eq_nil_iff.mp hsr
    · rename_i hemp
      have hne : s.ranges.flatMap (fun sel => selectRange t sel rx) ≠ [] := by
        intro hnil
        exact hemp (by simp [hnil])
      obtain ⟨s', hs'⟩ := Selection.new_isSome hne
      rw [hs'] at h
      exact absurd h (by simp)
  · intro hall
    simp only [select_on_matches]
    rw [if_pos ?_]
    rw [List.isEmpty_iff]
    refine List.flatMap_eq_nil_iff.mpr ?_
    intro x hx
    simp only [selectRange]
    rw [hall x hx]
    rfl
  · intro s' h
    simp only [select_on_matches] at h
    split at h
    · exact absurd h (by simp)
    · obtain ⟨hchain, _⟩ := flatMap_chain_le hw s.ranges hb hsels
      have hpair := List.chain'_iff_pairwise.mp hchain
      refine ⟨Selection.new_primary_zero hpair h, ?_⟩
      refine Selection.new_forward h ?_
      intro r hr
      obtain ⟨sel, hsel, hrin⟩ := List.mem_flatMap.mp hr
      exact ((selectRange_facts hw (hb sel hsel)).2 r hrin).2.2.1
  · intro hws s' h
    simp only [select_on_matches] at h
    split at h
    · exact absurd h (by simp)
    · rename_i hemp
      have hne : s.ranges.flatMap (fun sel => selectRange t sel rx) ≠ [] := by
        intro hnil
        exact hemp (by simp [hnil])
      obtain ⟨hchain, _⟩ := flatMap_chain_sep hw hws s.ranges hb hsels
      have hpair := List.chain'_iff_pairwise.mp hchain
      obtain ⟨hle, hno⟩ := Selection.pairwise_sep_valid hpair
      rw [Selection.new_of_sorted hne hle hno] at h
      simp only [Option.some.injEq] at h
      rw [← h]

/-- The empty-match engine `c7CexRx` satisfies the spec's pattern-engine
contract: matches lie inside the fragment and the iterator is forward and
non-overlapping with strictly increasing starts. -/
theorem c7CexRx_wf : c7CexRx.wf := by
  intro s
  constructor
  · intro m hm
    simp only [c7CexRx, List.mem_map, List.mem_range] at hm
    obtain ⟨k, hk, rfl⟩ := hm
    exact ⟨Nat.le_refl _, charToByte_mono s k s.length (by omega)⟩
  · simp only [c7CexRx]
    rw [List.chain'_map, List.chain'_range_succ]
    intro m hm
    exact ⟨charToByte_mono s m (m + 1) (by omega),
      charToByte_lt s m (m + 1) (by omega) (by omega)⟩

/-- Counterexample refuting C7 as stated: with the contract-satisfying
empty-match engine `c7CexRx` (the regex `x*` over `x`-free text, see
`c7CexRx_wf`) and the valid touching selection `(0,1), (1,2)` over `"ab"`,
the fragments produce four matches in total, yet `select_on_matches` returns
only three ranges — normalization merges the two zero-width ranges created at
offset 1 — so the result does not contain one new range per match. -/
theorem claim_C7_counterexample :
    c7CexSel.valid ∧
      (c7CexRx.find_iter ((Range.new 0 1).fragment c7CexText)).length +
          (c7CexRx.find_iter ((Range.new 1 2).fragment c7CexText)).length = 4 ∧
      select_on_matches c7CexText c7CexSel c7CexRx =
        some { ranges := [Range.new 0 0, Range.new 1 1, Range.new 2 2],
               primary_index := 0 } := by
  refine ⟨by decide, by decide, by decide⟩

/-- The single-character matcher `c7Rx` satisfies the pattern-engine
contract. -/
theorem c7Rx_wf : c7Rx.wf := by
  intro s
  constructor
  · intro m hm
    cases s with
    | nil => simp [c7Rx] at hm
    | cons c cs =>
      simp only [c7Rx, List.mem_singleton] at hm
      subst hm
      refine ⟨by simp, ?_⟩
      rw [show utf8Len (c :: cs) = c.utf8Size + charToByte cs cs.length from rfl]
      simp
  · cases s <;> simp [c7Rx]

/-- The single-character matcher's matches are non-empty and sit on
encoded-character boundaries. -/
theorem c7Rx_wfStrong : c7Rx.wfStrong := by
  intro s m hm
  cases s with
  | nil => simp [c7Rx] at hm
  | cons c cs =>
    simp only [c7Rx, List.mem_singleton] at hm
    subst hm
    refine ⟨by simpa using c.utf8Size_pos, ⟨0, by simp, (charToByte_zero _).symm⟩,
      ⟨1, by simp, ?_⟩⟩
    rw [show charToByte (c :: cs) 1 = c.utf8Size + charToByte cs 0 from rfl, charToByte_zero]
    simp

/-- Witness for C7 at the text `"abcd"`, the valid selection `(0,2), (3,4)`
and the single-character matcher: one range per match, primary index 0,
forward ranges. -/
theorem claim_C7_witness :
    select_on_matches c7Text c7Sel c7Rx =
        some { ranges := [Range.new 0 1, Range.new 3 4], primary_index := 0 } ∧
      ({ ranges := [Range.new 0 1, Range.new 3 4], primary_index := 0 } :
        Selection).primary_index = 0 ∧
      (Range.new 0 1).anchor ≤ (Range.new 0 1).head ∧
      ({ ranges := [Range.new 0 1, Range.new 3 4], primary_index := 0 } :
          Selection).ranges =
        c7Sel.ranges.flatMap (fun sel => selectRange c7Text sel c7Rx) :=
  ⟨by decide,
    ((claim_C7 c7Text c7Sel c7Rx (by decide) (by decide) c7Rx_wf).2.1
      { ranges := [Range.new 0 1, Range.new 3 4], primary_index := 0 } (by decide)).1,
    ((claim_C7 c7Text c7Sel c7Rx (by decide) (by decide) c7Rx_wf).2.1
      { ranges := [Range.new 0 1, Range.new 3 4], primary_index := 0 } (by decide)).2
      (Range.new 0 1) (by decide),
    (claim_C7 c7Text c7Sel c7Rx (by decide) (by decide) c7Rx_wf).2.2 c7Rx_wfStrong
      { ranges := [Range.new 0 1, Range.new 3 4], primary_index := 0 } (by decide)⟩

/-- C10: `overlaps` is symmetric. -/
theorem claim_C10 : ∀ a b : Range, a.overlaps b = b.overlaps a :=
  Range.overlaps_comm

/-- C1: every publicly constructed `Selection` satisfies the structural
invariant — non-empty range list, sorted by start, pairwise non-overlapping
under the overlap rule, in-bounds `primary_index`.  Covered constructors and
mutators: `single`, `point`, `new`, `push`, `into_single`, `map`, `transform`,
`keep_matches`, `select_on_matches`, `split_on_matches`.  A `none` result
models a Rust panic (empty input list or out-of-bounds index), where no
selection is produced; `into_single` and `map` operate on an already-valid
selection. -/
theorem claim_C1 :
    (∀ anchor head : Nat, (Selection.single anchor head).valid) ∧
      (∀ pos : Nat, (Selection.point pos).valid) ∧
      (∀ (rs : List Range) (p : Nat) (s : Selection),
        Selection.new rs p = some s → s.valid) ∧
      (∀ (s : Selection) (r : Range) (s' : Selection),
        s.push r = some s' → s'.valid) ∧
      (∀ s s' : Selection, s.valid → s.into_single = some s' → s'.valid) ∧
      (∀ (s : Selection) (cs : ChangeSet) (s' : Selection),
        s.valid → s.map cs = some s' → s'.valid) ∧
      (∀ (s : Selection) (f : Range → Range) (s' : Selection),
        s.transform f = some s' → s'.valid) ∧
      (∀ (t : List Char) (s : Selection) (rx : Regex) (s' : Selection),
        keep_matches t s rx = some s' → s'.valid) ∧
      (∀ (t : List Char) (s : Selection) (rx : Regex) (s' : Selection),
        select_on_matches t s rx = some s' → s'.valid) ∧
      (∀ (t : List Char) (s : Selection) (rx : Regex) (s' : Selection),
        split_on_matches t s rx = some s' → s'.valid) :=
  ⟨Selection.single_valid, Selection.point_valid,
    fun _ _ _ h => Selection.new_valid h,
    fun _ _ _ h => Selection.push_valid h,
    fun _ _ hv h => Selection.into_single_valid hv h,
    fun _ _ _ hv h => Selection.map_valid hv h,
    fun _ _ _ h => Selection.transform_valid h,
    fun _ _ _ _ h => keep_matches_valid h,
    fun _ _ _ _ h => select_on_matches_valid h,
    fun _ _ _ _ h => split_on_matches_valid h⟩

/-- Witness for C1: each constructor and mutator applied at a concrete input,
with every hypothesis discharged by evaluation. -/
theorem claim_C1_witness :
    (Selection.single 3 7).valid ∧
      (Selection.point 2).valid ∧
      ({ ranges := [Range.new 0 5], primary_index := 0 } : Selection).valid ∧
      ({ ranges := [Range.new 0 5], primary_index := 0 } : Selection).valid ∧
      ({ ranges := [Range.new 3 4], primary_index := 0 } : Selection).valid ∧
      ({ ranges := [Range.new 4 4], primary_index := 0 } : Selection).valid ∧
      ({ ranges := [Range.new 9 11], primary_index := 0 } : Selection).valid ∧
      ({ ranges := [Range.new 1 2], primary_index := 0 } : Selection).valid ∧
      ({ ranges := [Range.new 0 1], primary_index := 0 } : Selection).valid ∧
      ({ ranges := [Range.new 0 0], primary_index := 0 } : Selection).valid :=
  ⟨claim_C1.1 3 7,
    claim_C1.2.1 2,
    claim_C1.2.2.1 [Range.new 0 2, Range.new 1 5] 1 _ (by decide),
    claim_C1.2.2.2.1 (Selection.single 0 2) (Range.new 1 5) _ (by decide),
    claim_C1.2.2.2.2.1 { ranges := [Range.new 0 1, Range.new 3 4], primary_index := 1 } _
      (by decide) (by decide),
    claim_C1.2.2.2.2.2.1 (Selection.point 3)
      { is_empty := false, map_pos := fun n _ => n + 1 } _ (by decide) (by decide),
    claim_C1.2.2.2.2.2.2.1 (Selection.single 9 9)
      (fun r => Range.new r.anchor (r.head + 2)) _ (by decide),
    claim_C1.2.2.2.2.2.2.2.1 ['a', 'b']
      { ranges := [Range.new 0 1, Range.new 1 2], primary_index := 0 }
      { is_match := fun frag => frag.any (fun c => c == 'b'), find_iter := fun _ => [] } _
      (by decide),
    claim_C1.2.2.2.2.2.2.2.2.1 ['a', 'b']
      { ranges := [Range.new 0 2], primary_index := 0 }
      { is_match := fun _ => true, find_iter := fun _ => [(0, 1)] } _ (by decide),
    claim_C1.2.2.2.2.2.2.2.2.2 []
      { ranges := [Range.new 0 0], primary_index := 0 }
      { is_match := fun _ => false, find_iter := fun _ => [] } _ (by decide)⟩

end Helix

